import Mathlib

/-!
Verification of the bookshelf-scanner core: the image partitioner (`tileImage`),
the cross-tile deduplicator (`deduplicateBooks`), and the cascading
bibliographic resolver (`lookupOneBook` and the `/api/lookup` handler),
shallowly embedded from `src/server.js`.
-/

namespace Bookshelf

/-! ## Character and string helpers

JS `toLowerCase`, regex strips, and `split(/\s+/)` are modelled on `List Char`.
-/

/-- Model of JS `String.prototype.toLowerCase` (ASCII range). -/
def lowerChars (s : String) : List Char :=
  s.data.map Char.toLower

/-- Is `c` a lowercase ASCII letter (regex class `[a-z]`)? -/
def isLowerAlpha (c : Char) : Bool :=
  decide ('a' ≤ c) && decide (c ≤ 'z')

/-- Is `c` an ASCII digit (regex class `[0-9]`)? -/
def isDigitCh (c : Char) : Bool :=
  decide ('0' ≤ c) && decide (c ≤ '9')

/-- Is `c` whitespace (regex class `\s`)? -/
def isWsCh (c : Char) : Bool :=
  c.isWhitespace

/-- Split a character list into maximal nonempty runs of characters that do not
satisfy `p`; models JS `trim().split(/\s+/)` (for `p` = whitespace) up to the
empty tokens that every caller filters away. `acc` holds the current token,
reversed. -/
def splitTokens (p : Char → Bool) : List Char → List Char → List (List Char)
  | acc, [] => if acc.isEmpty then [] else [acc.reverse]
  | acc, c :: cs =>
    if p c then
      if acc.isEmpty then splitTokens p [] cs
      else acc.reverse :: splitTokens p [] cs
    else splitTokens p (c :: acc) cs

/-- Whitespace-delimited tokens of length at least 3, as used by
`authorsMatch` and the title-overlap check (`.split(/\s+/).filter(w => w.length > 2)`). -/
def words3 (cs : List Char) : List (List Char) :=
  (splitTokens isWsCh [] cs).filter (fun w => 2 < w.length)

/-- Model of JS `hay.includes(needle)` (substring test). -/
def listIncl (hay needle : List Char) : Bool :=
  decide (List.IsInfix needle hay)

/-- Model of JS `s.startsWith(p)`. -/
def jsStartsWith (s p : String) : Bool :=
  p.data.isPrefixOf s.data

/-- Model of JS `s.trim()`: strip leading and trailing whitespace. -/
def jsTrim (s : String) : String :=
  String.mk (((s.data.dropWhile isWsCh).reverse.dropWhile isWsCh).reverse)

/-! ## Data model -/

/-- An identified book record (`{title, author, confidence}`), as produced by
the identification pipeline and consumed by the deduplicator and resolver.
`confidence` is kept as a raw string because the code guards against
unrecognized values (`confRank[c] || 0`). -/
structure Book where
  title : String
  author : String
  confidence : String
deriving DecidableEq, Repr

/-- The overview produced by the counting pass (`{count, shelves}`); `notes`
is never consumed by the partitioner. -/
structure Overview where
  count : Nat
  shelves : Nat
deriving DecidableEq, Repr

/-- A rectangular sub-area of the source image plus its positional label,
as pushed onto `regions` in `tileImage`. Coordinates are `Int` so that the
JS arithmetic (`right - left` etc.) is reproduced exactly. -/
structure Region where
  left : Int
  top : Int
  width : Int
  height : Int
  label : String
deriving DecidableEq, Repr

/-- An Open Library search document, with the fields requested by
`searchOpenLibrary` (`title,author_name,isbn,cover_i,first_publish_year,
publisher,number_of_pages_median,subject`). A missing `title` is modelled
as `""` (both are falsy in the JS code). -/
structure Doc where
  title : String
  author_name : List String
  isbn : List String
  cover_i : Option Nat
  first_publish_year : Option Nat
  publisher : List String
  number_of_pages_median : Option Nat
  subject : List String
deriving DecidableEq, Repr

/-- The enriched record built by `docToResult` (always `matched = true`). -/
structure Enriched where
  title : String
  author : String
  isbn13 : String
  isbn10 : String
  coverUrl : Option String
  publishYear : Option Nat
  publisher : String
  pages : Option Nat
  subjects : String
  matched : Bool
deriving DecidableEq, Repr

/-! ## Deduplicator (`normalizeTitle`, `deduplicateBooks`) -/

/-- `normalizeTitle`: lowercase, strip all characters outside `[a-z0-9]`. -/
def normalizeTitle (t : String) : String :=
  String.mk ((lowerChars t).filter (fun c => isLowerAlpha c || isDigitCh c))

/-- The dedup key of a book: its normalized title. -/
def keyOf (b : Book) : String :=
  normalizeTitle b.title

/-- `confRank[c] || 0` on the domain where the lookup is a plain dictionary
lookup: the confidence rank, `0` for unrecognized values. This is exact for
every confidence string that is not the name of an inherited
`Object.prototype` member; `confLookup`/`confGt` below model the full JS
property-lookup semantics including the prototype chain. -/
def confRank (c : String) : Nat :=
  if c = "high" then 3 else if c = "medium" then 2 else if c = "low" then 1 else 0

/-- The property names a plain object literal inherits from
`Object.prototype`: for these keys `confRank[c]` is a truthy function (or,
for `__proto__`, an object), so `|| 0` never applies. -/
def protoNames : List String :=
  ["constructor", "hasOwnProperty", "isPrototypeOf", "propertyIsEnumerable",
   "toLocaleString", "toString", "valueOf", "__proto__",
   "__defineGetter__", "__defineSetter__", "__lookupGetter__", "__lookupSetter__"]

/-- The value of the JS expression `confRank[c] || 0`: either a number (an
own property's rank, or the `0` substituted for `undefined`), or an inherited
`Object.prototype` member (function or object), tagged by its name. -/
inductive ConfVal where
  | num : Nat → ConfVal
  | proto : String → ConfVal
deriving DecidableEq, Repr

/-- `confRank[c] || 0` under full JS property-lookup semantics: own
properties `high`/`medium`/`low` give their rank; an `Object.prototype`
member name gives the inherited (truthy) member; anything else is
`undefined`, which `|| 0` turns into `0`. -/
def confLookup (c : String) : ConfVal :=
  if c = "high" then .num 3
  else if c = "medium" then .num 2
  else if c = "low" then .num 1
  else if c ∈ protoNames then .proto c
  else .num 0

/-- JS `>` on two looked-up values. Number against number compares
numerically. A number against an inherited member is false both ways: the
member's `ToPrimitive` is a non-numeric string, whose `ToNumber` is `NaN`,
and every `NaN` comparison is false. Member against member compares the two
members' string representations lexicographically — engine-defined text,
abstracted as the `protoGt` parameter. -/
def confGt (protoGt : String → String → Bool) : ConfVal → ConfVal → Bool
  | .num a, .num b => decide (b < a)
  | .num _, .proto _ => false
  | .proto _, .num _ => false
  | .proto a, .proto b => protoGt a b

/-- The confidence rank of a book. -/
def rankOf (b : Book) : Nat :=
  confRank b.confidence

/-- The JS `Map` of `deduplicateBooks`, as an insertion-ordered association list. -/
abbrev DMap := List (String × Book)

/-- `map.get(key)`. -/
def lookupKey (m : DMap) (k : String) : Option Book :=
  (m.find? (fun p => p.1 == k)).map Prod.snd

/-- `map.set(key, book)`: overwriting an existing key keeps its position
(JS `Map` preserves first-insertion order); a fresh key is appended. -/
def mapSet : DMap → String → Book → DMap
  | [], k, b => [(k, b)]
  | p :: t, k, b => if p.1 = k then (k, b) :: t else p :: mapSet t k b

/-- One iteration of the `for (const book of allBooks)` loop in `deduplicateBooks`. -/
def dedupStep (m : DMap) (b : Book) : DMap :=
  if keyOf b = "" then m
  else
    match lookupKey m (keyOf b) with
    | none => mapSet m (keyOf b) b
    | some existing => if rankOf existing < rankOf b then mapSet m (keyOf b) b else m

/-- `deduplicateBooks`: fold the detections into the map, then `[...map.values()]`. -/
def deduplicateBooks (books : List Book) : List Book :=
  (books.foldl dedupStep []).map Prod.snd

/-- One iteration of the `deduplicateBooks` loop under the full JS lookup
semantics of `(confRank[book.confidence] || 0) > (confRank[existing.confidence] || 0)`,
parametric in the engine-defined member-against-member comparison. -/
def dedupStepJS (protoGt : String → String → Bool) (m : DMap) (b : Book) : DMap :=
  if keyOf b = "" then m
  else
    match lookupKey m (keyOf b) with
    | none => mapSet m (keyOf b) b
    | some existing =>
      if confGt protoGt (confLookup b.confidence) (confLookup existing.confidence) then
        mapSet m (keyOf b) b
      else m

/-- `deduplicateBooks` under the full JS property-lookup semantics. -/
def deduplicateBooksJS (protoGt : String → String → Bool) (books : List Book) : List Book :=
  (books.foldl (dedupStepJS protoGt) []).map Prod.snd

/-- The dedup fold restricted to one key: keep the current book unless a later
detection has strictly higher confidence rank. -/
def runBest (cur : Book) (l : List Book) : Book :=
  l.foldl (fun c a => if rankOf c < rankOf a then a else c) cur

/-- The per-key outcome of the dedup fold: starting from an optional earlier
entry, fold a key's detection group through the keep-strictly-better rule. -/
def foldBest (prev : Option Book) (g : List Book) : Option Book :=
  match prev, g with
  | some e, l => some (runBest e l)
  | none, [] => none
  | none, a :: l => some (runBest a l)

/-! ## Partitioner (`tileImage`)

`tileImage` computes the `regions` list from the image dimensions and the
optional overview; the subsequent `sharp().extract` calls consume the regions
unchanged, so the region list is the partitioner's output.
-/

/-- `Math.round(a / b)` for naturals `a`, `b > 0` (round half up). -/
def jsRound (a b : Nat) : Nat :=
  (2 * a + b) / (2 * b)

/-- `Math.round(c * 0.15)`: the 15% overlap pad of a cell dimension. -/
def pad15 (c : Nat) : Nat :=
  (3 * c + 10) / 20

/-- `overview?.count || 0`. -/
def ovCount (ov : Option Overview) : Nat :=
  match ov with
  | none => 0
  | some o => o.count

/-- `overview?.shelves || 1`. -/
def ovShelves (ov : Option Overview) : Nat :=
  match ov with
  | none => 1
  | some o => if o.shelves = 0 then 1 else o.shelves

/-- Column count of the adaptive grid. -/
def gridCols (w bookCount : Nat) : Nat :=
  if 40 ≤ bookCount ∨ 3000 ≤ w then 4
  else if 20 ≤ bookCount ∨ 2000 ≤ w then 3
  else 2

/-- Row count of the adaptive grid. -/
def gridRows (h shelves : Nat) : Nat :=
  if 4 ≤ shelves ∨ 3000 ≤ h then 4
  else if 2 ≤ shelves ∨ 1600 ≤ h then max shelves 2
  else 1

/-- `Math.max(0, idx * cell - padLow)`: the low edge of a grid cell along one
axis (`dim` pixels split into `n` cells, cell index `idx`), padded on its
interior side and clamped at the image boundary. -/
def regLow (dim n idx : Nat) : Int :=
  max 0 ((idx : Int) * (jsRound dim n : Int) -
    (if 0 < idx then (pad15 (jsRound dim n) : Int) else 0))

/-- `Math.min(dim, (idx + 1) * cell + padHigh)`: the high edge of a grid cell
along one axis, padded on its interior side and clamped at the image boundary. -/
def regHigh (dim n idx : Nat) : Int :=
  min (dim : Int) (((idx : Int) + 1) * (jsRound dim n : Int) +
    (if idx < n - 1 then (pad15 (jsRound dim n) : Int) else 0))

/-- The region pushed for grid cell `(row, col)` in the tiled path: the cell
expanded by the 15% pad on every interior edge and clamped to the image. -/
def mkRegion (w h cols rows row col : Nat) : Region :=
  ⟨regLow w cols col, regLow h rows row,
   regHigh w cols col - regLow w cols col,
   regHigh h rows row - regLow h rows row,
   "row" ++ toString (row + 1) ++ "-col" ++ toString (col + 1)⟩

/-- The grid's column count for given image width and overview. -/
def tiledCols (w : Nat) (ov : Option Overview) : Nat :=
  gridCols w (ovCount ov)

/-- The grid's row count for given image height and overview. -/
def tiledRows (h : Nat) (ov : Option Overview) : Nat :=
  gridRows h (ovShelves ov)

/-- The region list produced by `tileImage` for a `w × h` image: a single
full-image region for small images, else the row-major adaptive grid. -/
def tileRegions (w h : Nat) (ov : Option Overview) : List Region :=
  if w < 1200 ∧ h < 1200 then [⟨0, 0, (w : Int), (h : Int), "full image"⟩]
  else
    (List.range (tiledRows h ov)).flatMap fun row =>
      (List.range (tiledCols w ov)).map fun col =>
        mkRegion w h (tiledCols w ov) (tiledRows h ov) row col

/-- Pixel `(x, y)` lies inside region `r`. -/
def inRegion (r : Region) (x y : Int) : Prop :=
  r.left ≤ x ∧ x < r.left + r.width ∧ r.top ≤ y ∧ y < r.top + r.height

instance (r : Region) (x y : Int) : Decidable (inRegion r x y) := by
  unfold inRegion
  infer_instance

/-- Does any region of `rs` contain pixel `(x, y)`? -/
def coveredB (rs : List Region) (x y : Int) : Bool :=
  rs.any fun r => decide (inRegion r x y)

/-- Width of the horizontal overlap strip of two regions (intersection of
their `x`-ranges). -/
def overlapW (a b : Region) : Int :=
  min (a.left + a.width) (b.left + b.width) - max a.left b.left

/-- Height of the vertical overlap strip of two regions (intersection of
their `y`-ranges). -/
def overlapH (a b : Region) : Int :=
  min (a.top + a.height) (b.top + b.height) - max a.top b.top

/-! ## Bibliographic resolver (`authorsMatch`, `isSummaryKnockoff`,
`lookupOneBook`, `/api/lookup`) -/

/-- The author-name normalizer inside `authorsMatch`:
lowercase, strip everything outside `[a-z\s]`. -/
def authorChars (s : String) : List Char :=
  (lowerChars s).filter (fun c => isLowerAlpha c || isWsCh c)

/-- The name words compared by `authorsMatch`: normalize, split on whitespace,
keep words of length at least 3. -/
def authorWords (s : String) : List (List Char) :=
  words3 (authorChars s)

/-- How many of the expected name's words are substring matches (in either
direction) of some candidate word. -/
def authorMatchCount (expected candidate : String) : Nat :=
  ((authorWords expected).filter fun ew =>
    (authorWords candidate).any fun cw => listIncl cw ew || listIncl ew cw).length

/-- `authorsMatch(expected, candidate)`: the fuzzy author filter. -/
def authorsMatch (expected candidate : String) : Bool :=
  if expected = "" || expected = "Unknown" || candidate = "" then true
  else if (authorWords expected).isEmpty then true
  else if (authorWords expected).getLastD [] = (authorWords candidate).getLastD [] then true
  else decide (((authorWords expected).length + 1) / 2 ≤ authorMatchCount expected candidate)

/-- The author filter as the specification words it: accept outright when the
expected name is empty or "Unknown" or the candidate is empty; otherwise
accept exactly when the last words of both names are equal, or at least half
of the expected name's words are substring matches (in either direction) of
some candidate word. -/
def authorsMatchSpec (expected candidate : String) : Bool :=
  if expected = "" || expected = "Unknown" || candidate = "" then true
  else
    (!(authorWords expected).isEmpty && !(authorWords candidate).isEmpty &&
      decide ((authorWords expected).getLastD [] = (authorWords candidate).getLastD [])) ||
    decide ((authorWords expected).length ≤ 2 * authorMatchCount expected candidate)

/-- `isSummaryKnockoff(resultTitle, queryTitle)`: reject summary/review
knockoffs unless the query itself starts with the trigger. Note that for the
`"analysis of"` trigger the query-side exemption tests only `"analysis"`. -/
def isSummaryKnockoff (resultTitle queryTitle : String) : Bool :=
  let rt := String.mk (lowerChars resultTitle)
  let qt := String.mk (lowerChars queryTitle)
  if !jsStartsWith qt "summary" && jsStartsWith rt "summary" then true
  else if !jsStartsWith qt "review" && jsStartsWith rt "review" then true
  else if !jsStartsWith qt "analysis" && jsStartsWith rt "analysis of" then true
  else false

/-- The word list used by the title sanity check in `lookupOneBook`:
lowercase, strip everything outside `[a-z0-9\s]`, split on whitespace,
keep words of length at least 3. -/
def queryWords (s : String) : List (List Char) :=
  words3 ((lowerChars s).filter (fun c => isLowerAlpha c || isDigitCh c || isWsCh c))

/-- The title-overlap sanity check of `lookupOneBook`: some query word is a
substring of (or contains) some candidate-title word; vacuously passed when
the query has no words of length at least 3 (`normQ.length > 0` guard). -/
def titleOverlapOk (query candTitle : String) : Bool :=
  let normQ := queryWords query
  let normT := queryWords candTitle
  (normQ.any fun qw => normT.any fun tw => listIncl tw qw || listIncl qw tw) || normQ.isEmpty

/-- The strict overlap condition as the spec words it (no empty-query escape):
at least one query word is a substring of, or contains, a candidate-title word. -/
def overlapExists (query candTitle : String) : Bool :=
  (queryWords query).any fun qw =>
    (queryWords candTitle).any fun tw => listIncl tw qw || listIncl qw tw

/-- One entry of the `strategies` array in `lookupOneBook`. -/
structure Strategy where
  query : String
  useAuthorFilter : Bool
  titleField : Bool
deriving DecidableEq, Repr

/-- `book.title.split(/[:—\-–]/)[0].trim()`: the title with any
trailing subtitle stripped. -/
def stripSubtitle (t : String) : String :=
  jsTrim (String.mk (t.data.takeWhile fun c =>
    !(c = ':' || c = '—' || c = '-' || c = '–')))

/-- The six-strategy cascade of `lookupOneBook`, in order. -/
def strategies (book : Book) : List Strategy :=
  [ ⟨jsTrim (book.title ++ " " ++ (if book.author = "Unknown" then "" else book.author)),
      true, false⟩,
    ⟨book.title, true, false⟩,
    ⟨book.title, true, true⟩,
    ⟨stripSubtitle book.title, true, false⟩,
    ⟨book.title, false, true⟩,
    ⟨stripSubtitle book.title, false, false⟩ ]

/-- The bibliographic search service, abstracted: given the title-field flag
and the query string, returns the ranked documents. -/
abbrev Search := Bool → String → List Doc

/-- `docToResult(doc, originalBook)`: build the enriched record, falling back
to the original title/author when the document lacks them (JS `||` on the
joined author list and on the title). -/
def docToResult (doc : Doc) (originalBook : Book) : Enriched :=
  let isbn13 := (doc.isbn.find? fun i => i.length == 13).getD ""
  let isbn10 := (doc.isbn.find? fun i => i.length == 10).getD ""
  let joinedAuthors := String.intercalate ", " doc.author_name
  { title := if doc.title = "" then originalBook.title else doc.title
    author := if joinedAuthors = "" then originalBook.author else joinedAuthors
    isbn13 := isbn13
    isbn10 := isbn10
    coverUrl := match doc.cover_i with
      | some cid =>
        if cid = 0 then none
        else some ("https://covers.openlibrary.org/b/id/" ++ toString cid ++ "-M.jpg")
      | none => none
    publishYear := match doc.first_publish_year with
      | some y => if y = 0 then none else some y
      | none => none
    publisher := (doc.publisher.headD "")
    pages := match doc.number_of_pages_median with
      | some p => if p = 0 then none else some p
      | none => none
    subjects := String.intercalate ", " (doc.subject.take 3)
    matched := true }

/-- All three candidate filters of the inner `for (const doc of docs)` loop:
knockoff filter, author filter (when the strategy requires it), and the
title-overlap sanity check. -/
def acceptDoc (book : Book) (query : String) (useAuthorFilter : Bool) (doc : Doc) : Bool :=
  !isSummaryKnockoff doc.title book.title &&
  (!useAuthorFilter || authorsMatch book.author (String.intercalate ", " doc.author_name)) &&
  titleOverlapOk query doc.title

/-- Run one strategy: skip degenerate queries (`!query || query.length < 2`),
else return the first accepted document of the search results. -/
def tryStrategy (search : Search) (book : Book) (st : Strategy) : Option Doc :=
  if st.query = "" || st.query.length < 2 then none
  else (search st.titleField st.query).find? (acceptDoc book st.query st.useAuthorFilter)

/-- The outcome of `lookupOneBook`: either the enriched record built from the
first accepted document, or the original record spread with `matched: false`. -/
inductive LookupResult where
  | enriched : Enriched → LookupResult
  | unmatched : Book → LookupResult
deriving DecidableEq, Repr

/-- `lookupOneBook(book)`: try the strategies in order, return the first
accepted document's enrichment, else the original record with `matched=false`. -/
def lookupOneBook (search : Search) (book : Book) : LookupResult :=
  match (strategies book).findSome? (tryStrategy search book) with
  | some doc => .enriched (docToResult doc book)
  | none => .unmatched book

/-- The `/api/lookup` handler core:
`await Promise.all(books.map(lookupOneBook))`. -/
def Resolve (search : Search) (books : List Book) : List LookupResult :=
  books.map (lookupOneBook search)

/-- The rejection condition of `isSummaryKnockoff` as implemented, written as
one boolean formula: candidate-title triggers are `"summary"`, `"review"`,
`"analysis of"`; the query-side exemptions test `"summary"`, `"review"`, and
(only) `"analysis"` respectively. -/
def knockoffCond (resultTitle queryTitle : String) : Bool :=
  let rt := String.mk (lowerChars resultTitle)
  let qt := String.mk (lowerChars queryTitle)
  (jsStartsWith rt "summary" && !jsStartsWith qt "summary") ||
  (jsStartsWith rt "review" && !jsStartsWith qt "review") ||
  (jsStartsWith rt "analysis of" && !jsStartsWith qt "analysis")

/-! ## Deduplicator lemmas -/

theorem lookupKey_nil (k : String) : lookupKey [] k = none := rfl

theorem lookupKey_eq_none_iff (m : DMap) (k : String) :
    lookupKey m k = none ↔ ∀ p ∈ m, p.1 ≠ k := by
  simp [lookupKey, List.find?_eq_none]

theorem lookupKey_mapSet_self (k : String) (b : Book) (m : DMap) :
    lookupKey (mapSet m k b) k = some b := by
  induction m with
  | nil => simp [mapSet, lookupKey]
  | cons p t ih =>
    by_cases hp : p.1 = k
    · simp [mapSet, hp, lookupKey]
    · rw [mapSet, if_neg hp]
      rw [lookupKey, List.find?_cons_of_neg _ (by simp [hp])]
      exact ih

theorem lookupKey_mapSet_ne (k k' : String) (b : Book) (m : DMap) (h : k' ≠ k) :
    lookupKey (mapSet m k b) k' = lookupKey m k' := by
  have hkk : (k == k') = false := by simp; exact fun hh => h hh.symm
  induction m with
  | nil =>
    simp [mapSet, lookupKey, List.find?, hkk]
  | cons p t ih =>
    by_cases hp : p.1 = k
    · have hp' : (p.1 == k') = false := by simp [hp]; exact fun hh => h hh.symm
      rw [mapSet, if_pos hp]
      simp [lookupKey, List.find?, hkk, hp']
    · rw [mapSet, if_neg hp]
      by_cases hpk : p.1 = k'
      · simp [lookupKey, List.find?, hpk]
      · have hp' : (p.1 == k') = false := by simp [hpk]
        simp only [lookupKey, List.find?, hp']
        exact ih

theorem mem_mapSet (m : DMap) (k : String) (b : Book) (p : String × Book)
    (hp : p ∈ mapSet m k b) : p ∈ m ∨ p = (k, b) := by
  induction m with
  | nil => simp [mapSet] at hp; exact Or.inr hp
  | cons q t ih =>
    by_cases hq : q.1 = k
    · rw [mapSet, if_pos hq] at hp
      rcases List.mem_cons.mp hp with h | h
      · exact Or.inr h
      · exact Or.inl (List.mem_cons_of_mem _ h)
    · rw [mapSet, if_neg hq] at hp
      rcases List.mem_cons.mp hp with h | h
      · exact Or.inl (h ▸ List.mem_cons_self _ _)
      · rcases ih h with h' | h'
        · exact Or.inl (List.mem_cons_of_mem _ h')
        · exact Or.inr h'

theorem mapSet_of_absent (m : DMap) (k : String) (b : Book)
    (h : ∀ p ∈ m, p.1 ≠ k) : mapSet m k b = m ++ [(k, b)] := by
  induction m with
  | nil => rfl
  | cons q t ih =>
    rw [mapSet, if_neg (h q (List.mem_cons_self _ _))]
    rw [ih (fun p hp => h p (List.mem_cons_of_mem _ hp))]
    rfl

theorem keys_mapSet_of_present (m : DMap) (k : String) (b : Book) (e : Book)
    (h : lookupKey m k = some e) :
    (mapSet m k b).map Prod.fst = m.map Prod.fst := by
  induction m with
  | nil => simp [lookupKey] at h
  | cons q t ih =>
    by_cases hq : q.1 = k
    · rw [mapSet, if_pos hq]; simp [hq]
    · rw [mapSet, if_neg hq]
      rw [lookupKey, List.find?_cons_of_neg _ (by simp [hq])] at h
      simp [ih h]

theorem keys_mapSet_of_absent (m : DMap) (k : String) (b : Book)
    (h : lookupKey m k = none) :
    (mapSet m k b).map Prod.fst = m.map Prod.fst ++ [k] := by
  rw [mapSet_of_absent m k b ((lookupKey_eq_none_iff m k).mp h)]
  simp

theorem lookupKey_some_mem (m : DMap) (k : String) (e : Book)
    (h : lookupKey m k = some e) : (k, e) ∈ m := by
  unfold lookupKey at h
  cases hf : m.find? (fun p => p.1 == k) with
  | none => rw [hf] at h; cases h
  | some p =>
    rw [hf] at h
    have hm := List.mem_of_find?_eq_some hf
    have hk := List.find?_some hf
    cases p with
    | mk k' e' =>
      simp at hk h
      subst hk
      subst h
      exact hm

theorem dedupStep_eq (m : DMap) (b : Book) :
    dedupStep m b = m ∨ (keyOf b ≠ "" ∧ dedupStep m b = mapSet m (keyOf b) b) := by
  by_cases h : keyOf b = ""
  · exact Or.inl (by simp [dedupStep, h])
  · cases hl : lookupKey m (keyOf b) with
    | none => exact Or.inr ⟨h, by simp [dedupStep, h, hl]⟩
    | some e =>
      by_cases hr : rankOf e < rankOf b
      · exact Or.inr ⟨h, by simp [dedupStep, h, hl, hr]⟩
      · exact Or.inl (by simp [dedupStep, h, hl, hr])

theorem mem_dedupStep (m : DMap) (b : Book) (p : String × Book)
    (hp : p ∈ dedupStep m b) : p ∈ m ∨ (p = (keyOf b, b) ∧ keyOf b ≠ "") := by
  rcases dedupStep_eq m b with h | ⟨hne, h⟩
  · exact Or.inl (h ▸ hp)
  · rcases mem_mapSet _ _ _ _ (h ▸ hp) with h' | h'
    · exact Or.inl h'
    · exact Or.inr ⟨h', hne⟩

theorem keys_nodup_dedupStep (m : DMap) (b : Book)
    (h : (m.map Prod.fst).Nodup) : ((dedupStep m b).map Prod.fst).Nodup := by
  rcases dedupStep_eq m b with heq | ⟨_, heq⟩
  · rw [heq]; exact h
  · rw [heq]
    cases hl : lookupKey m (keyOf b) with
    | none =>
      rw [keys_mapSet_of_absent _ _ _ hl]
      have hnm : keyOf b ∉ m.map Prod.fst := by
        intro hmem
        rcases List.mem_map.mp hmem with ⟨p, hp, hpk⟩
        exact (lookupKey_eq_none_iff m (keyOf b)).mp hl p hp hpk
      simp [List.nodup_append, h, hnm]
    | some e =>
      rw [keys_mapSet_of_present _ _ _ _ hl]
      exact h

theorem foldl_dedup_entries (bs : List Book) : ∀ (m : DMap), ∀ p ∈ bs.foldl dedupStep m,
    p ∈ m ∨ (p.1 = keyOf p.2 ∧ p.1 ≠ "" ∧ p.2 ∈ bs) := by
  induction bs with
  | nil => intro m p hp; exact Or.inl hp
  | cons a bs ih =>
    intro m p hp
    rw [List.foldl_cons] at hp
    rcases ih (dedupStep m a) p hp with h | h
    · rcases mem_dedupStep m a p h with h' | h'
      · exact Or.inl h'
      · right
        rw [h'.1]
        exact ⟨rfl, h'.2, List.mem_cons_self _ _⟩
    · exact Or.inr ⟨h.1, h.2.1, List.mem_cons_of_mem _ h.2.2⟩

theorem foldl_dedup_keys_nodup (bs : List Book) : ∀ (m : DMap),
    (m.map Prod.fst).Nodup → ((bs.foldl dedupStep m).map Prod.fst).Nodup := by
  induction bs with
  | nil => intro m h; exact h
  | cons a bs ih =>
    intro m h
    rw [List.foldl_cons]
    exact ih _ (keys_nodup_dedupStep m a h)

theorem lookupKey_of_mem_nodup (m : DMap) (k : String) (e : Book)
    (hm : (k, e) ∈ m) (hnd : (m.map Prod.fst).Nodup) : lookupKey m k = some e := by
  induction m with
  | nil => cases hm
  | cons p t ih =>
    rcases List.mem_cons.mp hm with h | h
    · rw [← h]
      simp [lookupKey, List.find?_cons_of_pos]
    · have hp : p.1 ≠ k := by
        intro hk
        have : k ∈ t.map Prod.fst := List.mem_map.mpr ⟨(k, e), h, rfl⟩
        exact (List.nodup_cons.mp hnd).1 (hk ▸ this)
      rw [lookupKey, List.find?_cons_of_neg _ (by simp [hp])]
      exact ih h (List.nodup_cons.mp hnd).2

theorem lookupKey_foldl (k : String) (hk : k ≠ "") (bs : List Book) : ∀ (m : DMap),
    lookupKey (bs.foldl dedupStep m) k =
      foldBest (lookupKey m k) (bs.filter (fun a => keyOf a == k)) := by
  induction bs with
  | nil =>
    intro m
    cases h : lookupKey m k <;> simp [h, foldBest, runBest]
  | cons a bs ih =>
    intro m
    rw [List.foldl_cons]
    by_cases ha : keyOf a = ""
    · have h1 : dedupStep m a = m := by rw [dedupStep, if_pos ha]
      have h2 : (keyOf a == k) = false := by simp [ha, Ne.symm hk]
      rw [h1, ih m, List.filter_cons, h2]
      simp
    · by_cases hak : keyOf a = k
      · have h2 : (keyOf a == k) = true := by simp [hak]
        rw [List.filter_cons, h2]
        simp only [if_true]
        cases hl : lookupKey m k with
        | none =>
          have hstep : dedupStep m a = mapSet m k a := by
            simp [dedupStep, ha, hak, hl, hk]
          rw [hstep, ih (mapSet m k a), lookupKey_mapSet_self]
          rfl
        | some e =>
          by_cases hr : rankOf e < rankOf a
          · have hstep : dedupStep m a = mapSet m k a := by
              simp [dedupStep, ha, hak, hl, hr, hk]
            rw [hstep, ih (mapSet m k a), lookupKey_mapSet_self]
            simp [foldBest, runBest, hr]
          · have hstep : dedupStep m a = m := by
              simp [dedupStep, ha, hak, hl, hr, hk]
            rw [hstep, ih m, hl]
            simp [foldBest, runBest, hr]
      · have h2 : (keyOf a == k) = false := by simp [hak]
        have hstep : lookupKey (dedupStep m a) k = lookupKey m k := by
          rcases dedupStep_eq m a with heq | ⟨_, heq⟩
          · rw [heq]
          · rw [heq]
            exact lookupKey_mapSet_ne _ _ _ _ (fun h => hak h.symm)
        rw [ih (dedupStep m a), hstep, List.filter_cons, h2]
        simp

theorem runBest_spec (l : List Book) : ∀ (cur : Book),
    (runBest cur l = cur ∨ runBest cur l ∈ l) ∧
    rankOf cur ≤ rankOf (runBest cur l) ∧
    (∀ a ∈ l, rankOf a ≤ rankOf (runBest cur l)) ∧
    (cur :: l).find? (fun a => rankOf a == rankOf (runBest cur l)) = some (runBest cur l) := by
  induction l with
  | nil =>
    intro cur
    refine ⟨Or.inl rfl, Nat.le_refl _, by simp, ?_⟩
    simp [runBest, List.find?]
  | cons a l ih =>
    intro cur
    have hstep : runBest cur (a :: l) = runBest (if rankOf cur < rankOf a then a else cur) l := by
      simp [runBest]
    by_cases hr : rankOf cur < rankOf a
    · have ih' := ih a
      rw [hstep, if_pos hr]
      have hlt : rankOf cur < rankOf (runBest a l) := Nat.lt_of_lt_of_le hr ih'.2.1
      refine ⟨?_, Nat.le_of_lt hlt, ?_, ?_⟩
      · rcases ih'.1 with h | h
        · exact Or.inr (by rw [h]; exact List.mem_cons_self _ _)
        · exact Or.inr (List.mem_cons_of_mem _ h)
      · intro x hx
        rcases List.mem_cons.mp hx with h | h
        · exact h ▸ ih'.2.1
        · exact ih'.2.2.1 x h
      · rw [List.find?_cons_of_neg _ (by simp [Nat.ne_of_lt hlt])]
        exact ih'.2.2.2
    · have ih' := ih cur
      rw [hstep, if_neg hr]
      have hal : rankOf a ≤ rankOf cur := Nat.le_of_not_lt hr
      refine ⟨?_, ih'.2.1, ?_, ?_⟩
      · rcases ih'.1 with h | h
        · exact Or.inl h
        · exact Or.inr (List.mem_cons_of_mem _ h)
      · intro x hx
        rcases List.mem_cons.mp hx with h | h
        · exact h ▸ Nat.le_trans hal ih'.2.1
        · exact ih'.2.2.1 x h
      · have hfind := ih'.2.2.2
        by_cases hc : rankOf cur = rankOf (runBest cur l)
        · have hcur : runBest cur l = cur := by
            rw [List.find?_cons_of_pos _ (by simp [hc])] at hfind
            exact (Option.some_inj.mp hfind).symm
          rw [List.find?_cons_of_pos _ (by simp [hc])]
          rw [hcur]
        · have hlt : rankOf cur < rankOf (runBest cur l) :=
            Nat.lt_of_le_of_ne ih'.2.1 hc
          have hane : rankOf a ≠ rankOf (runBest cur l) :=
            Nat.ne_of_lt (Nat.lt_of_le_of_lt hal hlt)
          rw [List.find?_cons_of_neg _ (by simp [hc])] at hfind
          rw [List.find?_cons_of_neg _ (by simp [hc]),
            List.find?_cons_of_neg _ (by simp [hane])]
          exact hfind

/-! ## C1: the resolver entry point is 1:1, order preserving -/

/-- C1: for every input list (including the empty list), the resolver entry
point returns a list of the same length, the result at index `i` being the
resolution of the input book at index `i` (no drops, no merges, order
preserved). -/
theorem Resolve_one_to_one (search : Search) (books : List Book) :
    (Resolve search books).length = books.length ∧
    (∀ i : Nat, (Resolve search books)[i]? = (books[i]?).map (lookupOneBook search)) ∧
    Resolve search [] = [] := by
  refine ⟨by simp [Resolve], fun i => ?_, rfl⟩
  simp [Resolve]

/-! ## C2: partition completeness fails on a boundary rounding case -/

/-- C2 (code-bug evaluation): for a 3001×100 image with no overview the
partitioner tiles a 4×1 grid with `cellW = round(3001/4) = 750`, so the
rightmost region ends at `min(3001, 4·750) = 3000` and the in-range pixel
`(3000, 0)` lies in no region: the union of regions does not cover the image. -/
theorem tileRegions_misses_pixel :
    ((0 : Int) ≤ 3000 ∧ (3000 : Int) < 3001 ∧ (0 : Int) ≤ 0 ∧ (0 : Int) < 100) ∧
    coveredB (tileRegions 3001 100 none) 3000 0 = false := by
  decide

/-! ## C3: the shared overlap strip is twice the 15% pad -/

/-- C3 (counterexample): for a 2000×1600 image with no overview (3×2 grid,
`cellW = 667`, `cellH = 800`), the horizontally adjacent regions `row1-col1`
and `row1-col2` overlap in a strip of width 200 — which is `2 · round(0.15·667)`,
not 15% of either cell dimension (`round(0.15·667) = 100`,
`round(0.15·800) = 120`). -/
theorem tileRegions_overlap_not_fifteen :
    mkRegion 2000 1600 3 2 0 0 ∈ tileRegions 2000 1600 none ∧
    mkRegion 2000 1600 3 2 0 1 ∈ tileRegions 2000 1600 none ∧
    (mkRegion 2000 1600 3 2 0 0).label = "row1-col1" ∧
    (mkRegion 2000 1600 3 2 0 1).label = "row1-col2" ∧
    overlapW (mkRegion 2000 1600 3 2 0 0) (mkRegion 2000 1600 3 2 0 1) = 200 ∧
    pad15 (jsRound 2000 3) = 100 ∧ pad15 (jsRound 1600 2) = 120 ∧
    (200 : Int) ≠ 100 ∧ (200 : Int) ≠ 120 ∧ (200 : Int) ≠ 15 := by
  decide

/-! ## C5: an exhausted cascade returns the original record verbatim -/

/-- C5: whenever `lookupOneBook` falls through every strategy (in particular
for a search service that returns no documents at all), it returns the
original record unmodified, tagged `matched = false`: every
`unmatched` result carries exactly the input book. -/
theorem lookupOneBook_exhausted (search : Search) (book : Book) :
    lookupOneBook (fun _ _ => []) book = .unmatched book ∧
    ∀ b', lookupOneBook search book = .unmatched b' → b' = book := by
  constructor
  · have h : ∀ st ∈ strategies book, tryStrategy (fun _ _ => []) book st = none := by
      intro st _
      unfold tryStrategy
      split
      · rfl
      · rfl
    unfold lookupOneBook
    rw [List.findSome?_eq_none_iff.mpr h]
  · intro b' h
    unfold lookupOneBook at h
    cases hf : (strategies book).findSome? (tryStrategy search book) with
    | some d => rw [hf] at h; exact absurd h (by simp)
    | none => rw [hf] at h; cases h; rfl

/-- C5 witness: concrete run of the empty search service on a concrete book. -/
theorem lookupOneBook_exhausted_witness :
    lookupOneBook (fun _ _ => []) ⟨"Dune", "Frank Herbert", "high"⟩ =
      .unmatched ⟨"Dune", "Frank Herbert", "high"⟩ ∧
    (⟨"Dune", "Frank Herbert", "high"⟩ : Book) = ⟨"Dune", "Frank Herbert", "high"⟩ := by
  have t := lookupOneBook_exhausted (fun _ _ => []) ⟨"Dune", "Frank Herbert", "high"⟩
  exact ⟨t.1, t.2 _ t.1⟩

/-! ## C7: the knockoff filter's query exemption for "analysis of" -/

/-- C7 (counterexample): the candidate title "Analysis of Dreams" starts with
"analysis of" and the query "Analysis Paralysis" does not, yet the candidate
is not rejected — the query-side exemption tests only `"analysis"`. -/
theorem knockoff_analysis_counterexample :
    jsStartsWith (String.mk (lowerChars "Analysis of Dreams")) "analysis of" = true ∧
    jsStartsWith (String.mk (lowerChars "Analysis Paralysis")) "analysis of" = false ∧
    isSummaryKnockoff "Analysis of Dreams" "Analysis Paralysis" = false := by
  decide

/-- C7 (amended): the knockoff filter rejects exactly per `knockoffCond`
(for the `"analysis of"` candidate trigger, the query exemption checks the
word `"analysis"` alone); in particular "Summary of Dune" is rejected for the
query "Dune" and accepted for the query "Summary of Dune". -/
theorem isSummaryKnockoff_amended :
    (∀ r q, isSummaryKnockoff r q = knockoffCond r q) ∧
    isSummaryKnockoff "Summary of Dune" "Dune" = true ∧
    isSummaryKnockoff "Summary of Dune" "Summary of Dune" = false := by
  refine ⟨fun r q => ?_, by decide, by decide⟩
  unfold isSummaryKnockoff knockoffCond
  simp [Bool.and_comm, Bool.or_assoc]

/-! ## C4, C9, C10: deduplicator claims -/

theorem dedup_out_spec (bs : List Book) (c : Book) (hc : c ∈ deduplicateBooks bs) :
    c ∈ bs ∧ keyOf c ≠ "" ∧ lookupKey (bs.foldl dedupStep []) (keyOf c) = some c := by
  rcases List.mem_map.mp hc with ⟨p, hp, hpc⟩
  rcases foldl_dedup_entries bs [] p hp with h | h
  · simp at h
  · have hkey : p.1 = keyOf c := by rw [h.1, hpc]
    refine ⟨hpc ▸ h.2.2, hkey ▸ h.2.1, ?_⟩
    have hmem : (keyOf c, c) ∈ bs.foldl dedupStep [] := by
      have : p = (keyOf c, c) := by
        rw [← hkey, ← hpc]
      exact this ▸ hp
    exact lookupKey_of_mem_nodup _ _ _ hmem (foldl_dedup_keys_nodup bs [] (by simp))

theorem dedup_pair (b1 b2 : Book) (hk : keyOf b2 = keyOf b1) (hne : keyOf b1 ≠ "") :
    deduplicateBooks [b1, b2] = if rankOf b1 < rankOf b2 then [b2] else [b1] := by
  have hne2 : keyOf b2 ≠ "" := by rw [hk]; exact hne
  by_cases hr : rankOf b1 < rankOf b2 <;>
    simp [deduplicateBooks, dedupStep, lookupKey, mapSet, List.find?, hne, hne2, hk, hr]

/-- C4: `deduplicateBooks` keeps exactly one entry per distinct nonempty
normalized title: every output entry is an input detection with a nonempty
dedup key, output keys are pairwise distinct, every input detection with a
nonempty key is represented by an output entry of at least its confidence
rank, each output entry has maximal rank within its key group and is the
group's first detection of that rank (first-seen tie-break), and a low/high
duplicate pair always resolves to the "high" entry regardless of order. -/
theorem deduplicateBooks_spec (bs : List Book) :
    (∀ c ∈ deduplicateBooks bs, c ∈ bs ∧ keyOf c ≠ "") ∧
    (deduplicateBooks bs).Pairwise (fun a b => keyOf a ≠ keyOf b) ∧
    (∀ a ∈ bs, keyOf a ≠ "" →
      ∃ c ∈ deduplicateBooks bs, keyOf c = keyOf a ∧ rankOf a ≤ rankOf c) ∧
    (∀ c ∈ deduplicateBooks bs,
      (∀ a ∈ bs.filter (fun a => keyOf a == keyOf c), rankOf a ≤ rankOf c) ∧
      (bs.filter (fun a => keyOf a == keyOf c)).find? (fun a => rankOf a == rankOf c) =
        some c) ∧
    (∀ b1 b2 : Book, keyOf b1 = keyOf b2 → keyOf b1 ≠ "" → b1.confidence = "low" →
      b2.confidence = "high" →
      deduplicateBooks [b1, b2] = [b2] ∧ deduplicateBooks [b2, b1] = [b2]) := by
  refine ⟨?_, ?_, ?_, ?_, ?_⟩
  · exact fun c hc => ⟨(dedup_out_spec bs c hc).1, (dedup_out_spec bs c hc).2.1⟩
  · have hnodup := foldl_dedup_keys_nodup bs [] (by simp)
    have hkeys : (bs.foldl dedupStep []).Pairwise
        (fun p q : String × Book => p.1 ≠ q.1) := List.pairwise_map.mp hnodup
    unfold deduplicateBooks
    rw [List.pairwise_map]
    refine hkeys.imp_of_mem ?_
    intro p q hp hq hne'
    rcases foldl_dedup_entries bs [] p hp with h | h
    · simp at h
    · rcases foldl_dedup_entries bs [] q hq with h' | h'
      · simp at h'
      · rw [← h.1, ← h'.1]
        exact hne'
  · intro a ha hane
    have hfold := lookupKey_foldl (keyOf a) hane bs []
    rw [lookupKey_nil] at hfold
    cases hG : bs.filter (fun x => keyOf x == keyOf a) with
    | nil =>
      exfalso
      have : a ∈ bs.filter (fun x => keyOf x == keyOf a) :=
        List.mem_filter.mpr ⟨ha, by simp⟩
      rw [hG] at this
      cases this
    | cons g gs =>
      rw [hG] at hfold
      have hmem : (keyOf a, runBest g gs) ∈ bs.foldl dedupStep [] :=
        lookupKey_some_mem _ _ _ hfold
      have hout : runBest g gs ∈ deduplicateBooks bs :=
        List.mem_map.mpr ⟨(keyOf a, runBest g gs), hmem, rfl⟩
      have hkc : keyOf (runBest g gs) = keyOf a := by
        rcases foldl_dedup_entries bs [] _ hmem with h | h
        · simp at h
        · exact h.1.symm
      have hrank : rankOf a ≤ rankOf (runBest g gs) := by
        have haf : a ∈ g :: gs := by
          rw [← hG]
          exact List.mem_filter.mpr ⟨ha, by simp⟩
        rcases List.mem_cons.mp haf with h | h
        · exact h ▸ (runBest_spec gs g).2.1
        · exact (runBest_spec gs g).2.2.1 a h
      exact ⟨runBest g gs, hout, hkc, hrank⟩
  · intro c hc
    obtain ⟨_, hkne, hlook⟩ := dedup_out_spec bs c hc
    have hfold := lookupKey_foldl (keyOf c) hkne bs []
    rw [lookupKey_nil, hlook] at hfold
    cases hG : bs.filter (fun x => keyOf x == keyOf c) with
    | nil =>
      rw [hG] at hfold
      simp [foldBest] at hfold
    | cons g gs =>
      rw [hG] at hfold
      have hc' : runBest g gs = c := by
        simpa [foldBest] using hfold.symm
      constructor
      · intro a ha'
        rcases List.mem_cons.mp ha' with h | h
        · exact h ▸ (hc' ▸ (runBest_spec gs g).2.1)
        · exact hc' ▸ (runBest_spec gs g).2.2.1 a h
      · rw [← hc']
        exact (runBest_spec gs g).2.2.2
  · intro b1 b2 hkk hne h1 h2
    have e1 := dedup_pair b1 b2 hkk.symm hne
    have e2 := dedup_pair b2 b1 hkk (hkk ▸ hne)
    constructor
    · rw [e1]
      simp [rankOf, confRank, h1, h2]
    · rw [e2]
      simp [rankOf, confRank, h1, h2]

/-- C4 witness: a concrete low/high duplicate pair ("Dune" vs "dune!",
identical normalized key) resolves to the "high" entry in both input orders. -/
theorem deduplicateBooks_spec_witness :
    deduplicateBooks [⟨"Dune", "F. Herbert", "low"⟩, ⟨"dune!", "Frank Herbert", "high"⟩] =
      [⟨"dune!", "Frank Herbert", "high"⟩] ∧
    deduplicateBooks [⟨"dune!", "Frank Herbert", "high"⟩, ⟨"Dune", "F. Herbert", "low"⟩] =
      [⟨"dune!", "Frank Herbert", "high"⟩] :=
  (deduplicateBooks_spec []).2.2.2.2 _ _ (by decide) (by decide) rfl rfl

theorem foldl_dedupStep_fresh (cs : List Book) : ∀ (m : DMap),
    (∀ c ∈ cs, keyOf c ≠ "") → (cs.map keyOf).Nodup →
    (∀ c ∈ cs, lookupKey m (keyOf c) = none) →
    cs.foldl dedupStep m = m ++ cs.map (fun c => (keyOf c, c)) := by
  induction cs with
  | nil => intro m _ _ _; simp
  | cons c cs ih =>
    intro m h1 h2 h3
    have hc : keyOf c ≠ "" := h1 c (List.mem_cons_self _ _)
    have hl : lookupKey m (keyOf c) = none := h3 c (List.mem_cons_self _ _)
    have h2' : keyOf c ∉ cs.map keyOf ∧ (cs.map keyOf).Nodup := by
      rw [List.map_cons] at h2
      exact List.nodup_cons.mp h2
    have hstep : dedupStep m c = m ++ [(keyOf c, c)] := by
      have heq : dedupStep m c = mapSet m (keyOf c) c := by simp [dedupStep, hc, hl]
      rw [heq, mapSet_of_absent _ _ _ ((lookupKey_eq_none_iff _ _).mp hl)]
    rw [List.foldl_cons, hstep]
    rw [ih (m ++ [(keyOf c, c)]) (fun x hx => h1 x (List.mem_cons_of_mem _ hx)) h2'.2 ?_]
    · simp
    · intro x hx
      rw [lookupKey_eq_none_iff]
      intro p hp
      rcases List.mem_append.mp hp with hpm | hps
      · exact (lookupKey_eq_none_iff _ _).mp (h3 x (List.mem_cons_of_mem _ hx)) p hpm
      · have hp1 : p.1 = keyOf c := by
          have hp' : p = (keyOf c, c) := by simpa using hps
          rw [hp']
        rw [hp1]
        intro he
        exact h2'.1 (he ▸ List.mem_map.mpr ⟨x, hx, rfl⟩)

theorem dedup_fixed (cs : List Book) (h1 : ∀ c ∈ cs, keyOf c ≠ "")
    (h2 : (cs.map keyOf).Nodup) : deduplicateBooks cs = cs := by
  unfold deduplicateBooks
  rw [foldl_dedupStep_fresh cs [] h1 h2 (fun _ _ => rfl)]
  rw [List.nil_append, List.map_map]
  have hid : (Prod.snd ∘ fun c : Book => (keyOf c, c)) = id := rfl
  rw [hid, List.map_id]

/-- C9: the deduplicator is idempotent — deduplicated lists are fixed points. -/
theorem deduplicateBooks_idempotent (bs : List Book) :
    deduplicateBooks (deduplicateBooks bs) = deduplicateBooks bs := by
  apply dedup_fixed
  · exact fun c hc => (dedup_out_spec bs c hc).2.1
  · have hnodup := foldl_dedup_keys_nodup bs [] (by simp)
    have heq : (deduplicateBooks bs).map keyOf = (bs.foldl dedupStep []).map Prod.fst := by
      unfold deduplicateBooks
      rw [List.map_map]
      refine List.map_congr_left ?_
      intro p hp
      rcases foldl_dedup_entries bs [] p hp with h | h
      · simp at h
      · exact h.1.symm
    rw [heq]
    exact hnodup

theorem dedupJS_pair (protoGt : String → String → Bool) (b1 b2 : Book)
    (hk : keyOf b2 = keyOf b1) (hne : keyOf b1 ≠ "") :
    deduplicateBooksJS protoGt [b1, b2] =
      if confGt protoGt (confLookup b2.confidence) (confLookup b1.confidence) then [b2]
      else [b1] := by
  have hne2 : keyOf b2 ≠ "" := by rw [hk]; exact hne
  by_cases hr : confGt protoGt (confLookup b2.confidence) (confLookup b1.confidence) <;>
    simp [deduplicateBooksJS, dedupStepJS, lookupKey, mapSet, List.find?, hne, hne2, hk, hr]

theorem confGt_num_zero (protoGt : String → String → Bool) (v : ConfVal) :
    confGt protoGt (ConfVal.num 0) v = false := by
  cases v with
  | num n => simp [confGt]
  | proto s => rfl

/-- C10 (counterexample): the JS lookup `confRank[c] || 0` does not rank a
"constructor" confidence 0 — it yields the inherited `Object.prototype`
constructor, a truthy function whose comparisons against numbers are false
both ways — so a later "high" duplicate does NOT replace a kept entry whose
confidence is the unrecognized string "constructor", contradicting the
claim's "always replaces". -/
theorem dedup_proto_counterexample :
    normalizeTitle "Dune" = normalizeTitle "dune!" ∧ normalizeTitle "Dune" ≠ "" ∧
    ¬("constructor" = "high" ∨ "constructor" = "medium" ∨ "constructor" = "low") ∧
    confLookup "constructor" ≠ .num 0 ∧
    deduplicateBooksJS (fun _ _ => false)
      [⟨"Dune", "X", "constructor"⟩, ⟨"dune!", "Y", "high"⟩] =
      [⟨"Dune", "X", "constructor"⟩] ∧
    deduplicateBooksJS (fun _ _ => false)
      [⟨"Dune", "X", "constructor"⟩, ⟨"dune!", "Y", "high"⟩] ≠
      [⟨"dune!", "Y", "high"⟩] := by
  decide

/-- C10 (amended): under the full JS lookup semantics — for any
engine-defined member-against-member comparison — a detection whose
confidence is missing or is any string other than "high"/"medium"/"low" AND
not the name of an inherited `Object.prototype` member is ranked `num 0`,
strictly below "low"; such a detection never replaces an already-kept entry
with the same normalized title (its rank-0 comparison loses to every kept
value), while a later duplicate with a recognized confidence always replaces
a kept entry whose confidence is unrecognized-and-not-a-prototype-member. -/
theorem dedup_unrecognized_conf_amended (protoGt : String → String → Bool) (b1 b2 : Book)
    (hk : keyOf b2 = keyOf b1) (hne : keyOf b1 ≠ "") :
    (b2.confidence ≠ "high" → b2.confidence ≠ "medium" → b2.confidence ≠ "low" →
      b2.confidence ∉ protoNames →
      confLookup b2.confidence = .num 0 ∧
      confGt protoGt (confLookup "low") (confLookup b2.confidence) = true ∧
      deduplicateBooksJS protoGt [b1, b2] = [b1]) ∧
    (b1.confidence ≠ "high" → b1.confidence ≠ "medium" → b1.confidence ≠ "low" →
      b1.confidence ∉ protoNames →
      (b2.confidence = "high" ∨ b2.confidence = "medium" ∨ b2.confidence = "low") →
      deduplicateBooksJS protoGt [b1, b2] = [b2]) := by
  constructor
  · intro hh hm hl hp
    have h0 : confLookup b2.confidence = .num 0 := by
      simp [confLookup, hh, hm, hl, hp]
    have hlow : confLookup "low" = .num 1 := rfl
    refine ⟨h0, by rw [h0, hlow]; rfl, ?_⟩
    rw [dedupJS_pair protoGt b1 b2 hk hne, h0, confGt_num_zero]
    rfl
  · intro hh hm hl hp hrec
    have h0 : confLookup b1.confidence = .num 0 := by
      simp [confLookup, hh, hm, hl, hp]
    have h2 : ∃ k, confLookup b2.confidence = .num k ∧ 0 < k := by
      rcases hrec with h | h | h
      · exact ⟨3, by simp [confLookup, h], by omega⟩
      · exact ⟨2, by simp [confLookup, h], by omega⟩
      · exact ⟨1, by simp [confLookup, h], by omega⟩
    obtain ⟨k, hk2, hkpos⟩ := h2
    rw [dedupJS_pair protoGt b1 b2 hk hne, h0, hk2]
    simp [confGt, hkpos]

/-- C10 amended witness: with a concrete member comparison, a "musing"
confidence looks up as 0 (below "low") and never displaces a kept "low"
entry, while a kept "musing" entry is replaced by a later "high" one. -/
theorem dedup_unrecognized_conf_amended_witness :
    (confLookup "musing" = .num 0 ∧
      confGt (fun _ _ => false) (confLookup "low") (confLookup "musing") = true ∧
      deduplicateBooksJS (fun _ _ => false)
        [⟨"Dune", "X", "low"⟩, ⟨"dune!", "Y", "musing"⟩] = [⟨"Dune", "X", "low"⟩]) ∧
    deduplicateBooksJS (fun _ _ => false)
      [⟨"Dune", "X", "musing"⟩, ⟨"dune!", "Y", "high"⟩] = [⟨"dune!", "Y", "high"⟩] :=
  ⟨(dedup_unrecognized_conf_amended (fun _ _ => false)
      ⟨"Dune", "X", "low"⟩ ⟨"dune!", "Y", "musing"⟩ (by decide) (by decide)).1
      (by decide) (by decide) (by decide) (by decide),
   (dedup_unrecognized_conf_amended (fun _ _ => false)
      ⟨"Dune", "X", "musing"⟩ ⟨"dune!", "Y", "high"⟩ (by decide) (by decide)).2
      (by decide) (by decide) (by decide) (by decide) (Or.inl rfl)⟩

/-! ## Partitioner lemmas and the amended C3 -/

theorem pad15_le (c : Nat) : pad15 c ≤ c := by
  unfold pad15
  omega

theorem regLow_nonneg (dim n idx : Nat) : 0 ≤ regLow dim n idx := by
  simp only [regLow]
  exact le_max_left _ _

theorem regHigh_le (dim n idx : Nat) : regHigh dim n idx ≤ (dim : Int) := by
  simp only [regHigh]
  exact min_le_left _ _

theorem regLow_eval (dim n idx : Nat) (h0 : 0 < idx) :
    regLow dim n idx =
      (idx : Int) * (jsRound dim n : Int) - (pad15 (jsRound dim n) : Int) := by
  have hpad : ((pad15 (jsRound dim n) : Int)) ≤ ((jsRound dim n : Int)) := by
    exact_mod_cast pad15_le (jsRound dim n)
  have h1 : (1 : Int) ≤ (idx : Int) := by exact_mod_cast h0
  have h3 : 1 * ((jsRound dim n : Int)) ≤ (idx : Int) * (jsRound dim n : Int) :=
    mul_le_mul_of_nonneg_right h1 (Int.natCast_nonneg _)
  rw [one_mul] at h3
  simp only [regLow, if_pos h0]
  apply max_eq_right
  omega

theorem regHigh_eval (dim n idx : Nat) (hhi : idx < n - 1)
    (hclip : (idx + 1) * jsRound dim n + pad15 (jsRound dim n) ≤ dim) :
    regHigh dim n idx =
      ((idx : Int) + 1) * (jsRound dim n : Int) + (pad15 (jsRound dim n) : Int) := by
  have hle : ((idx : Int) + 1) * (jsRound dim n : Int) +
      (pad15 (jsRound dim n) : Int) ≤ (dim : Int) := by
    exact_mod_cast hclip
  simp only [regHigh, if_pos hhi]
  exact min_eq_right hle

theorem regLow_mono (dim n idx : Nat) : regLow dim n idx ≤ regLow dim n (idx + 1) := by
  have hpad : ((pad15 (jsRound dim n) : Int)) ≤ ((jsRound dim n : Int)) := by
    exact_mod_cast pad15_le (jsRound dim n)
  simp only [regLow, if_pos (Nat.succ_pos idx)]
  apply max_le_max (le_refl 0)
  have hexp : ((idx + 1 : Nat) : Int) * (jsRound dim n : Int) =
      (idx : Int) * (jsRound dim n : Int) + (jsRound dim n : Int) := by
    push_cast
    ring
  by_cases h0 : 0 < idx
  · rw [if_pos h0]
    omega
  · rw [if_neg h0]
    omega

theorem regHigh_mono (dim n idx : Nat) : regHigh dim n idx ≤ regHigh dim n (idx + 1) := by
  have hpad : ((pad15 (jsRound dim n) : Int)) ≤ ((jsRound dim n : Int)) := by
    exact_mod_cast pad15_le (jsRound dim n)
  simp only [regHigh]
  apply min_le_min (le_refl _)
  have hexp : (((idx + 1 : Nat) : Int) + 1) * (jsRound dim n : Int) =
      ((idx : Int) + 1) * (jsRound dim n : Int) + (jsRound dim n : Int) := by
    push_cast
    ring
  rw [hexp]
  by_cases h1 : idx < n - 1
  · rw [if_pos h1]
    by_cases h2 : idx + 1 < n - 1
    · rw [if_pos h2]
      omega
    · rw [if_neg h2]
      omega
  · rw [if_neg h1]
    by_cases h2 : idx + 1 < n - 1
    · rw [if_pos h2]
      omega
    · rw [if_neg h2]
      omega

theorem adjacent_overlap (dim n idx : Nat) (hn : idx + 1 < n)
    (hclip : (idx + 1) * jsRound dim n + pad15 (jsRound dim n) ≤ dim) :
    regHigh dim n idx - regLow dim n (idx + 1) =
      2 * (pad15 (jsRound dim n) : Int) := by
  rw [regHigh_eval dim n idx (by omega) hclip, regLow_eval dim n (idx + 1) (Nat.succ_pos idx)]
  push_cast
  ring

theorem overlapW_mkRegion (w h cols rows row col col' : Nat) :
    overlapW (mkRegion w h cols rows row col) (mkRegion w h cols rows row col') =
      min (regHigh w cols col) (regHigh w cols col') -
        max (regLow w cols col) (regLow w cols col') := by
  simp only [overlapW, mkRegion]
  omega

theorem overlapH_mkRegion (w h cols rows row row' col col' : Nat) :
    overlapH (mkRegion w h cols rows row col) (mkRegion w h cols rows row' col') =
      min (regHigh h rows row) (regHigh h rows row') -
        max (regLow h rows row) (regLow h rows row') := by
  simp only [overlapH, mkRegion]
  omega

theorem mkRegion_mem (w h : Nat) (ov : Option Overview) (row col : Nat)
    (hsmall : ¬(w < 1200 ∧ h < 1200)) (hrow : row < tiledRows h ov)
    (hcol : col < tiledCols w ov) :
    mkRegion w h (tiledCols w ov) (tiledRows h ov) row col ∈ tileRegions w h ov := by
  unfold tileRegions
  rw [if_neg hsmall]
  refine List.mem_flatMap.mpr ⟨row, List.mem_range.mpr hrow, ?_⟩
  exact List.mem_map.mpr ⟨col, List.mem_range.mpr hcol, rfl⟩

theorem region_in_bounds (w h : Nat) (ov : Option Overview) (r : Region)
    (hr : r ∈ tileRegions w h ov) :
    0 ≤ r.left ∧ 0 ≤ r.top ∧ r.left + r.width ≤ (w : Int) ∧ r.top + r.height ≤ (h : Int) := by
  unfold tileRegions at hr
  by_cases hsmall : w < 1200 ∧ h < 1200
  · rw [if_pos hsmall] at hr
    have : r = ⟨0, 0, (w : Int), (h : Int), "full image"⟩ := by simpa using hr
    rw [this]
    refine ⟨le_refl 0, le_refl 0, by simp, by simp⟩
  · rw [if_neg hsmall] at hr
    obtain ⟨row, _, hm⟩ := List.mem_flatMap.mp hr
    obtain ⟨col, _, hreq⟩ := List.mem_map.mp hm
    rw [← hreq]
    have hl1 := regLow_nonneg w (tiledCols w ov) col
    have hl2 := regLow_nonneg h (tiledRows h ov) row
    have hh1 := regHigh_le w (tiledCols w ov) col
    have hh2 := regHigh_le h (tiledRows h ov) row
    simp only [mkRegion]
    refine ⟨hl1, hl2, ?_, ?_⟩ <;> omega

/-- C3 (amended): every region stays inside the image boundary, and in the
tiled path two grid-adjacent regions overlap — when the image boundary does
not clip the shared edge — in a strip whose width (resp. height) is the SUM
of the two interior pads, i.e. `2 · round(0.15 · cellW)` horizontally and
`2 · round(0.15 · cellH)` vertically, not 15% of the smaller cell dimension. -/
theorem tileRegions_overlap_amended (w h : Nat) (ov : Option Overview) :
    (∀ r ∈ tileRegions w h ov,
      0 ≤ r.left ∧ 0 ≤ r.top ∧ r.left + r.width ≤ (w : Int) ∧ r.top + r.height ≤ (h : Int)) ∧
    (¬(w < 1200 ∧ h < 1200) →
      ∀ row col, row < tiledRows h ov → col + 1 < tiledCols w ov →
        mkRegion w h (tiledCols w ov) (tiledRows h ov) row col ∈ tileRegions w h ov ∧
        mkRegion w h (tiledCols w ov) (tiledRows h ov) row (col + 1) ∈ tileRegions w h ov ∧
        ((col + 1) * jsRound w (tiledCols w ov) + pad15 (jsRound w (tiledCols w ov)) ≤ w →
          overlapW (mkRegion w h (tiledCols w ov) (tiledRows h ov) row col)
              (mkRegion w h (tiledCols w ov) (tiledRows h ov) row (col + 1)) =
            2 * (pad15 (jsRound w (tiledCols w ov)) : Int))) ∧
    (¬(w < 1200 ∧ h < 1200) →
      ∀ row col, row + 1 < tiledRows h ov → col < tiledCols w ov →
        ((row + 1) * jsRound h (tiledRows h ov) + pad15 (jsRound h (tiledRows h ov)) ≤ h →
          overlapH (mkRegion w h (tiledCols w ov) (tiledRows h ov) row col)
              (mkRegion w h (tiledCols w ov) (tiledRows h ov) (row + 1) col) =
            2 * (pad15 (jsRound h (tiledRows h ov)) : Int))) := by
  refine ⟨region_in_bounds w h ov, ?_, ?_⟩
  · intro hsmall row col hrow hcol
    refine ⟨mkRegion_mem w h ov row col hsmall hrow (by omega),
      mkRegion_mem w h ov row (col + 1) hsmall hrow hcol, ?_⟩
    intro hclip
    rw [overlapW_mkRegion,
      min_eq_left (regHigh_mono w (tiledCols w ov) col),
      max_eq_right (regLow_mono w (tiledCols w ov) col)]
    exact adjacent_overlap w (tiledCols w ov) col hcol hclip
  · intro hsmall row col hrow hcol hclip
    rw [overlapH_mkRegion,
      min_eq_left (regHigh_mono h (tiledRows h ov) row),
      max_eq_right (regLow_mono h (tiledRows h ov) row)]
    exact adjacent_overlap h (tiledRows h ov) row hrow hclip

/-- C3 amended witness: concrete 2000×1600 image, 3×2 grid; the `row1-col1`
region overlaps `row1-col2` by 200 = 2·100 horizontally and `row2-col1` by
240 = 2·120 vertically, and `row1-col1` lies inside the image. -/
theorem tileRegions_overlap_amended_witness :
    mkRegion 2000 1600 3 2 0 0 ∈ tileRegions 2000 1600 none ∧
    mkRegion 2000 1600 3 2 0 1 ∈ tileRegions 2000 1600 none ∧
    overlapW (mkRegion 2000 1600 3 2 0 0) (mkRegion 2000 1600 3 2 0 1) =
      2 * (pad15 (jsRound 2000 3) : Int) ∧
    overlapH (mkRegion 2000 1600 3 2 0 0) (mkRegion 2000 1600 3 2 1 0) =
      2 * (pad15 (jsRound 1600 2) : Int) ∧
    (0 ≤ (mkRegion 2000 1600 3 2 0 0).left ∧ 0 ≤ (mkRegion 2000 1600 3 2 0 0).top ∧
      (mkRegion 2000 1600 3 2 0 0).left + (mkRegion 2000 1600 3 2 0 0).width ≤ (2000 : Int) ∧
      (mkRegion 2000 1600 3 2 0 0).top + (mkRegion 2000 1600 3 2 0 0).height ≤ (1600 : Int)) := by
  have t := tileRegions_overlap_amended 2000 1600 none
  have h2 := t.2.1 (by decide) 0 0 (by decide) (by decide)
  have h3 := t.2.2 (by decide) 0 0 (by decide) (by decide)
  exact ⟨h2.1, h2.2.1, h2.2.2 (by decide), h3 (by decide), t.1 _ h2.1⟩

/-! ## C6: the author filter matches its specification -/

theorem words3_length (cs : List Char) : ∀ w ∈ words3 cs, 2 < w.length := by
  intro w hw
  have := (List.mem_filter.mp hw).2
  simpa using this

theorem getLastD_mem_of_ne_nil (l : List (List Char)) (d : List Char) (h : l ≠ []) :
    l.getLastD d ∈ l := by
  induction l generalizing d with
  | nil => exact absurd rfl h
  | cons a t ih =>
    rw [List.getLastD_cons]
    cases t with
    | nil => simp [List.getLastD]
    | cons b t' =>
      exact List.mem_cons_of_mem _ (ih a (List.cons_ne_nil _ _))

theorem authorsMatch_eq_spec (e c : String) : authorsMatch e c = authorsMatchSpec e c := by
  unfold authorsMatch authorsMatchSpec
  split
  · rfl
  · by_cases hemp : (authorWords e).isEmpty
    · have hlen : (authorWords e).length = 0 := by
        have hnil : authorWords e = [] := by rwa [List.isEmpty_iff] at hemp
        rw [hnil]
        rfl
      simp [hemp, hlen]
    · rw [if_neg hemp]
      by_cases hlast : (authorWords e).getLastD [] = (authorWords c).getLastD []
      · rw [if_pos hlast]
        by_cases hcemp : (authorWords c).isEmpty
        · exfalso
          have hene : authorWords e ≠ [] := by
            intro hnil
            rw [hnil] at hemp
            exact hemp rfl
          have hmem := getLastD_mem_of_ne_nil (authorWords e) [] hene
          have hlong := words3_length (authorChars e) _ hmem
          have hcnil : authorWords c = [] := by rwa [List.isEmpty_iff] at hcemp
          rw [hlast, hcnil] at hlong
          simp [List.getLastD] at hlong
        · have he1 : (authorWords e).isEmpty = false := by simpa using hemp
          have hc1 : (authorWords c).isEmpty = false := by simpa using hcemp
          have hle : decide ((authorWords e).getLastD [] = (authorWords c).getLastD []) =
              true := decide_eq_true hlast
          rw [he1, hc1, hle]
          rfl
      · rw [if_neg hlast]
        have hd : decide (((authorWords e).length + 1) / 2 ≤ authorMatchCount e c) =
            decide ((authorWords e).length ≤ 2 * authorMatchCount e c) := by
          rw [decide_eq_decide]
          omega
        have hl : decide ((authorWords e).getLastD [] = (authorWords c).getLastD []) =
            false := decide_eq_false hlast
        rw [hd, hl]
        simp only [Bool.and_false, Bool.false_or]

/-- C6: `authorsMatch` accepts exactly as specified — outright when the
expected author is empty or "Unknown" or the candidate is empty, else when
the last words match or at least half of the expected words are substring
matches of some candidate word; in particular it accepts an exact self-match
and accepts anything when the original author is "Unknown". -/
theorem authorsMatch_spec (e c : String) :
    authorsMatch e c = authorsMatchSpec e c ∧
    authorsMatch "Stephen King" "Stephen King" = true ∧
    (∀ s, authorsMatch "Unknown" s = true) := by
  refine ⟨authorsMatch_eq_spec e c, by decide, fun s => ?_⟩
  unfold authorsMatch
  simp

/-! ## C8: the title-overlap filter and its empty-query waiver -/

/-- C8 (counterexample): for the book `{title: "It", author: "Unknown"}`
every strategy's query is `"It"`, which has no words of length ≥ 3, so the
overlap requirement is waived: a candidate titled "Zzzz" sharing no word with
any query is accepted and enriched. -/
theorem lookup_accepts_without_overlap :
    lookupOneBook
        (fun _ q => if q = "It" then [⟨"Zzzz", [], [], none, none, [], none, []⟩] else [])
        ⟨"It", "Unknown", "low"⟩ =
      .enriched (docToResult ⟨"Zzzz", [], [], none, none, [], none, []⟩
        ⟨"It", "Unknown", "low"⟩) ∧
    ((strategies ⟨"It", "Unknown", "low"⟩).map Strategy.query).all
      (fun q => !overlapExists q "Zzzz") = true := by
  decide

/-- C8 (amended): whenever `lookupOneBook` accepts a candidate, that candidate
passed every active filter of its strategy, and in particular the title
overlap check as implemented: some query word is a substring of (or contains)
some candidate-title word, OR the query has no words of length at least 3
(in which case the overlap requirement is waived). This holds on every
strategy of the cascade. -/
theorem lookup_accepted_overlap (search : Search) (book : Book) (e : Enriched)
    (h : lookupOneBook search book = .enriched e) :
    ∃ st ∈ strategies book, ∃ doc ∈ search st.titleField st.query,
      acceptDoc book st.query st.useAuthorFilter doc = true ∧
      (overlapExists st.query doc.title = true ∨ queryWords st.query = []) ∧
      e = docToResult doc book := by
  unfold lookupOneBook at h
  cases hf : (strategies book).findSome? (tryStrategy search book) with
  | none => rw [hf] at h; cases h
  | some doc =>
    rw [hf] at h
    have he : e = docToResult doc book := by
      cases h
      rfl
    obtain ⟨st, hst, htry⟩ := List.exists_of_findSome?_eq_some hf
    unfold tryStrategy at htry
    split at htry
    · cases htry
    · have hmem := List.mem_of_find?_eq_some htry
      have hacc := List.find?_some htry
      refine ⟨st, hst, doc, hmem, hacc, ?_, he⟩
      have hsplit : titleOverlapOk st.query doc.title = true := by
        have := hacc
        rw [acceptDoc] at this
        simp only [Bool.and_eq_true] at this
        exact this.2
      rw [titleOverlapOk] at hsplit
      simp only [Bool.or_eq_true] at hsplit
      rcases hsplit with h1 | h1
      · exact Or.inl h1
      · right
        rw [← List.isEmpty_iff]
        simpa using h1

/-- C8 amended witness: a concrete positive run — the book "Dune" by Frank
Herbert against a service returning the matching document — produces an
acceptance whose strategy, document, filters and enrichment instantiate the
amended claim. -/
theorem lookup_accepted_overlap_witness :
    ∃ st ∈ strategies (⟨"Dune", "Frank Herbert", "high"⟩ : Book),
      ∃ doc ∈ (fun _ q => if q = "Dune Frank Herbert"
            then [(⟨"Dune", ["Frank Herbert"], [], none, none, [], none, []⟩ : Doc)]
            else [] : Search) st.titleField st.query,
        acceptDoc ⟨"Dune", "Frank Herbert", "high"⟩ st.query st.useAuthorFilter doc = true ∧
        (overlapExists st.query doc.title = true ∨ queryWords st.query = []) ∧
        docToResult ⟨"Dune", ["Frank Herbert"], [], none, none, [], none, []⟩
            ⟨"Dune", "Frank Herbert", "high"⟩ = docToResult doc
            ⟨"Dune", "Frank Herbert", "high"⟩ :=
  lookup_accepted_overlap
    (fun _ q => if q = "Dune Frank Herbert"
      then [(⟨"Dune", ["Frank Herbert"], [], none, none, [], none, []⟩ : Doc)] else [])
    ⟨"Dune", "Frank Herbert", "high"⟩
    (docToResult ⟨"Dune", ["Frank Herbert"], [], none, none, [], none, []⟩
      ⟨"Dune", "Frank Herbert", "high"⟩)
    (by decide)

end Bookshelf

